import Mathlib

/-!
Verification of the frontd TCP tunnel server (`main.go`) against its
natural-language specification.

Modelling conventions:
* Go byte slices and Go strings are modelled as `List Nat`, each element a
  byte value `< 256` where that matters.
* The AES block cipher obtained from `aes.NewCipher(_SecretPassphase)` for a
  key of valid length is modelled as an abstract single-block encryption
  function `E : List Nat → List Nat` that maps a 16-byte block to a 16-byte
  block of bytes.  CFB mode (both the encrypter used by token producers and
  the decrypter in `TCPServer`) only ever invokes the block cipher in its
  forward (encrypt) direction, so `E` is all that is needed.
* `aes.BlockSize` is the constant 16.
* Fallible steps return `Except DecodeError` / `Option`.
-/

/-- The constant `aes.BlockSize` of the Go standard library. -/
def aesBlockSize : Nat := 16

/-- The standard base64 alphabet as used by `base64.StdEncoding`:
index `0`–`63` to ASCII code. -/
def b64Char (n : Nat) : Nat :=
  if n < 26 then 65 + n
  else if n < 52 then 97 + (n - 26)
  else if n < 62 then 48 + (n - 52)
  else if n = 62 then 43
  else 47

/-- Inverse of the standard base64 alphabet: ASCII code to 6-bit group. -/
def b64Index (c : Nat) : Option Nat :=
  if 65 ≤ c ∧ c ≤ 90 then some (c - 65)
  else if 97 ≤ c ∧ c ≤ 122 then some (c - 97 + 26)
  else if 48 ≤ c ∧ c ≤ 57 then some (c - 48 + 52)
  else if c = 43 then some 62
  else if c = 47 then some 63
  else none

/-- Standard padded base64 encoding (`base64.StdEncoding.EncodeToString`):
three input bytes become four alphabet characters, with `=` (ASCII 61)
padding for a final group of one or two bytes. -/
def base64Encode : List Nat → List Nat
  | [] => []
  | [a] => [b64Char (a / 4), b64Char (a % 4 * 16), 61, 61]
  | [a, b] => [b64Char (a / 4), b64Char (a % 4 * 16 + b / 16), b64Char (b % 16 * 4), 61]
  | a :: b :: c :: rest =>
    b64Char (a / 4) :: b64Char (a % 4 * 16 + b / 16) ::
    b64Char (b % 16 * 4 + c / 64) :: b64Char (c % 64) :: base64Encode rest

/-- Core of base64 decoding: input must be a sequence of four-character
groups, `=` padding allowed only in the final group (one or two `=`).
Matches the acceptance behaviour of `base64.StdEncoding.DecodeString`
after newline characters have been removed. -/
def base64DecodeQuads : List Nat → Option (List Nat)
  | [] => some []
  | c1 :: c2 :: c3 :: c4 :: rest =>
    if c3 = 61 ∧ c4 = 61 ∧ rest = [] then
      match b64Index c1, b64Index c2 with
      | some g1, some g2 => some [g1 * 4 + g2 / 16]
      | _, _ => none
    else if c4 = 61 ∧ rest = [] then
      match b64Index c1, b64Index c2, b64Index c3 with
      | some g1, some g2, some g3 => some [g1 * 4 + g2 / 16, g2 % 16 * 16 + g3 / 4]
      | _, _, _ => none
    else
      match b64Index c1, b64Index c2, b64Index c3, b64Index c4, base64DecodeQuads rest with
      | some g1, some g2, some g3, some g4, some tl =>
        some ((g1 * 4 + g2 / 16) :: (g2 % 16 * 16 + g3 / 4) :: (g3 % 4 * 64 + g4) :: tl)
      | _, _, _, _, _ => none
  | _ => none

/-- Full decoding, `base64.StdEncoding.DecodeString`: the Go decoder skips carriage
returns and newlines (ASCII 13 and 10) anywhere in the input, then decodes
strict four-character groups. -/
def base64Decode (l : List Nat) : Option (List Nat) :=
  base64DecodeQuads (l.filter (fun c => !(c == 13 || c == 10)))

/-- CFB-mode encryption as implemented by `crypto/cipher.NewCFBEncrypter`,
with an explicit fuel argument for structural recursion (the fuel is always
instantiated with the plaintext length, which suffices).  The keystream
block for the first segment is `E iv`; the keystream block for each later
segment is `E` of the previous ciphertext segment.  A final partial segment
is allowed: CFB is a stream mode and needs no padding. -/
def cfbEncryptFuel (E : List Nat → List Nat) : Nat → List Nat → List Nat → List Nat
  | 0, _, _ => []
  | _ + 1, _, [] => []
  | fuel + 1, prev, x :: xs =>
    let c := List.zipWith Nat.xor (E prev) (List.take aesBlockSize (x :: xs))
    c ++ cfbEncryptFuel E fuel c (List.drop aesBlockSize (x :: xs))

/-- CFB-mode encryption of a whole plaintext. -/
def cfbEncrypt (E : List Nat → List Nat) (iv pt : List Nat) : List Nat :=
  cfbEncryptFuel E pt.length iv pt

/-- CFB-mode decryption as implemented by `crypto/cipher.NewCFBDecrypter`
(used by `cfb.XORKeyStream(text, text)` in `TCPServer`), with fuel.
Identical keystream schedule to encryption, except that the feedback
segment is taken from the ciphertext input directly. -/
def cfbDecryptFuel (E : List Nat → List Nat) : Nat → List Nat → List Nat → List Nat
  | 0, _, _ => []
  | _ + 1, _, [] => []
  | fuel + 1, prev, x :: xs =>
    let chunk := List.take aesBlockSize (x :: xs)
    List.zipWith Nat.xor (E prev) chunk ++
      cfbDecryptFuel E fuel chunk (List.drop aesBlockSize (x :: xs))

/-- CFB-mode decryption of a whole ciphertext. -/
def cfbDecrypt (E : List Nat → List Nat) (iv ct : List Nat) : List Nat :=
  cfbDecryptFuel E ct.length iv ct

/-- The distinct failure points of the decode path in `TCPServer`
(each is a `log.Panicln` site in the Go source). -/
inductive DecodeError
  /-- Failure of `base64.StdEncoding.DecodeString`. -/
  | encodingError
  /-- Failure of the check `len(data) < aes.BlockSize`: "ciphertext too short". -/
  | ciphertextTooShort
  /-- Failure of the check `len(text) < len(_Salt)`: "salt check failed". -/
  | saltCheckFailed
  /-- Failure of the check `bytes.Equal(text[addrLength:], _Salt)`: "salt not match". -/
  | saltNotMatch
deriving DecidableEq

/-- The decode path of `TCPServer` after base64 decoding (`main.go`
lines 121–144): extract the IV from the first `aes.BlockSize` bytes,
CFB-decrypt the rest, check that the plaintext ends with the salt, and
strip the salt to obtain the backend address. -/
def decodePayload (E : List Nat → List Nat) (salt data : List Nat) :
    Except DecodeError (List Nat) :=
  if data.length < aesBlockSize then .error .ciphertextTooShort
  else
    let iv := data.take aesBlockSize
    let text := cfbDecrypt E iv (data.drop aesBlockSize)
    if text.length < salt.length then .error .saltCheckFailed
    else if text.drop (text.length - salt.length) = salt then
      .ok (text.take (text.length - salt.length))
    else .error .saltNotMatch

/-- The full decode path of `TCPServer` (`main.go` lines 114–144):
base64-decode the header line, then run `decodePayload`. -/
def decodeToken (E : List Nat → List Nat) (salt tok : List Nat) :
    Except DecodeError (List Nat) :=
  match base64Decode tok with
  | none => .error .encodingError
  | some data => decodePayload E salt data

/-- The constant `_MaxBackendAddrCacheCount` from `main.go` (underscore dropped). -/
def MaxBackendAddrCacheCount : Nat := 1024 * 1024

/-- A snapshot of the backend address cache (`_BackendAddrCache` holds a
Go `map[string]string`): an association list from wire token to decoded
backend address.  Snapshots published by the code always have distinct
keys, mirroring Go map semantics. -/
abbrev CacheMap : Type := List (List Nat × List Nat)

/-- Go map assignment `m[k] = v` on a snapshot, extensionally: any earlier
binding of `k` is replaced, all other bindings are kept. -/
def mapSet (m : CacheMap) (k v : List Nat) : CacheMap :=
  (m : List (List Nat × List Nat)).filter (fun p => p.1 != k) ++ [(k, v)]

/-- Function `readBackendAddrCache` from `main.go`: look the key up in the current
snapshot. -/
def readBackendAddrCache (m : CacheMap) (k : List Nat) : Option (List Nat) :=
  ((m : List (List Nat × List Nat)).find? (fun p => p.1 == k)).map (fun p => p.2)

/-- Function `writeBackendAddrCache` from `main.go`: start from an empty map, copy
the current snapshot into it only when the current snapshot has fewer than
`_MaxBackendAddrCacheCount` entries, then assign the new binding and
publish the result. -/
def writeBackendAddrCache (m : CacheMap) (k v : List Nat) : CacheMap :=
  mapSet (if (m : List (List Nat × List Nat)).length < MaxBackendAddrCacheCount then m else []) k v

/-- Cache snapshots reachable from the empty initial cache
(`init` stores an empty map) by any sequence of inserts. -/
inductive CacheReachable : CacheMap → Prop
  | init : CacheReachable ([] : CacheMap)
  | step (m : CacheMap) (k v : List Nat) :
      CacheReachable m → CacheReachable (writeBackendAddrCache m k v)

/-- The address-resolution step of the connection handler (`main.go`
lines 111–148): consult the cache; on a miss run the decoder, and insert
into the cache only when every decode step succeeded. -/
def resolveAddr (E : List Nat → List Nat) (salt : List Nat) (m : CacheMap)
    (tok : List Nat) : CacheMap × Except DecodeError (List Nat) :=
  match readBackendAddrCache m tok with
  | some addr => (m, .ok addr)
  | none =>
    match decodeToken E salt tok with
    | .error e => (m, .error e)
    | .ok addr => (writeBackendAddrCache m tok addr, .ok addr)

/-- Per-connection input as seen by the accept loop: either the accept
itself fails, or a connection arrives; for a connection, `line` is the
header line read by `rdr.ReadLine()` (`none` models a read error or an
over-long line, i.e. `err != nil || isPrefix`), and `dialOk` tells whether
`net.Dial` to the resolved backend succeeds. -/
inductive ConnEvent
  | acceptFail
  | conn (line : Option (List Nat)) (dialOk : Bool)

/-- How the handling of one accepted connection ends.  Every failing case
corresponds to a `log.Panicln` that is caught by the handler goroutine's
deferred `recover()`, so it aborts only this connection. -/
inductive ConnOutcome
  | headerFailed
  | decodeFailed (e : DecodeError)
  | dialFailed (addr : List Nat)
  | relayed (addr : List Nat)

/-- The body of the per-connection goroutine in `TCPServer`, as a function
of the published cache snapshot and the connection's events; returns the
cache snapshot after the connection's resolution attempt and the
connection's outcome. -/
def handleConn (E : List Nat → List Nat) (salt : List Nat) (m : CacheMap)
    (line : Option (List Nat)) (dialOk : Bool) : CacheMap × ConnOutcome :=
  match line with
  | none => (m, .headerFailed)
  | some tok =>
    match resolveAddr E salt m tok with
    | (m1, .error e) => (m1, .decodeFailed e)
    | (m1, .ok addr) => (m1, if dialOk then .relayed addr else .dialFailed addr)

/-- Returns `true` for events that deliver a connection, `false` for an accept
failure. -/
def isConnEvent : ConnEvent → Bool
  | .acceptFail => false
  | .conn _ _ => true

/-- The accept loop of `TCPServer` over a finite schedule of events,
threading the cache through the successive connection handlers.  The
second component records whether the process died: `l.Accept()` returning
an error reaches `log.Fatal`, which exits the process, so no later event
is processed; every per-connection outcome (including all the failing
ones) leaves the loop running. -/
def serverRun (E : List Nat → List Nat) (salt : List Nat) :
    CacheMap → List ConnEvent → List ConnOutcome × Bool
  | _, [] => ([], false)
  | _, .acceptFail :: _ => ([], true)
  | m, .conn line dialOk :: rest =>
    let r := handleConn E salt m line dialOk
    let rec1 := serverRun E salt r.1 rest
    (r.2 :: rec1.1, rec1.2)

/-- Where a `pipe` goroutine stands relative to the `sync.WaitGroup`:
before its `wg.Add(1)` (`idle`), between `wg.Add(1)` and the deferred
`wg.Done()` — which is where the whole `io.Copy` runs (`registered`), or
after `wg.Done()`, i.e. its copy direction has terminated (`finished`). -/
inductive PipePhase
  | idle
  | registered
  | finished
deriving DecidableEq

/-- Interleaving state of one handler's relay phase (`main.go` lines
159–166): the two `pipe` goroutines spawned by `go pipe(c, backend, &wg)`
and `go pipe(backend, c, &wg)`, the WaitGroup counter, and whether the
parent's `wg.Wait()` has returned. -/
structure RelayState where
  p1 : PipePhase
  p2 : PipePhase
  counter : Nat
  waitReturned : Bool

/-- State right after the two `go pipe(...)` statements: neither goroutine
has executed `wg.Add(1)` yet, the counter is zero, the parent has not yet
returned from `wg.Wait()`. -/
def relayInit : RelayState := ⟨.idle, .idle, 0, false⟩

/-- Interleaved small steps of the relay phase.  `wg.Wait()` returns as
soon as it observes a zero counter (`sync.WaitGroup` semantics), and each
`pipe` goroutine increments the counter with `wg.Add(1)` only after it has
been scheduled. -/
inductive RelayStep : RelayState → RelayState → Prop
  | add1 (s : RelayState) (h : s.p1 = .idle) :
      RelayStep s { s with p1 := .registered, counter := s.counter + 1 }
  | done1 (s : RelayState) (h : s.p1 = .registered) :
      RelayStep s { s with p1 := .finished, counter := s.counter - 1 }
  | add2 (s : RelayState) (h : s.p2 = .idle) :
      RelayStep s { s with p2 := .registered, counter := s.counter + 1 }
  | done2 (s : RelayState) (h : s.p2 = .registered) :
      RelayStep s { s with p2 := .finished, counter := s.counter - 1 }
  | waitRet (s : RelayState) (h : s.counter = 0) :
      RelayStep s { s with waitReturned := true }

/-- Relay states reachable from `relayInit` under some interleaving. -/
inductive RelayReachable : RelayState → Prop
  | init : RelayReachable relayInit
  | step (s t : RelayState) : RelayReachable s → RelayStep s t → RelayReachable t

/-- A degenerate but admissible block cipher (every block encrypts to the
all-zero block), used to instantiate theorems at concrete inputs. -/
def zeroCipher : List Nat → List Nat := fun _ => List.replicate aesBlockSize 0

theorem find_mapSet_self (m : CacheMap) (k v : List Nat) :
    ((mapSet m k v).find? (fun p => p.1 == k)) = some (k, v) := by
  rw [mapSet, List.find?_append, List.find?_filter]
  have h1 : m.find?
      (fun a : List Nat × List Nat => decide ((a.1 != k) = true ∧ (a.1 == k) = true)) = none := by
    rw [List.find?_eq_none]
    intro x _
    by_cases hx : x.1 = k <;> simp [hx]
  rw [h1]
  simp

theorem find_mapSet_ne (m : CacheMap) (k v k' : List Nat) (h : k' ≠ k) :
    ((mapSet m k v).find? (fun p => p.1 == k')) = m.find? (fun p => p.1 == k') := by
  have hpred : (fun a : List Nat × List Nat => decide ((a.1 != k) = true ∧ (a.1 == k') = true)) =
      (fun p : List Nat × List Nat => p.1 == k') := by
    funext p
    by_cases hp : p.1 = k'
    · simp [hp, h]
    · simp [hp]
  rw [mapSet, List.find?_append, List.find?_filter, hpred]
  have h2 : List.find? (fun p : List Nat × List Nat => p.1 == k') [(k, v)] = none := by
    simp
    exact Ne.symm h
  rw [h2]
  simp

theorem readBackendAddrCache_mapSet_self (m : CacheMap) (k v : List Nat) :
    readBackendAddrCache (mapSet m k v) k = some v := by
  simp [readBackendAddrCache, find_mapSet_self]

theorem readBackendAddrCache_mapSet_ne (m : CacheMap) (k v k' : List Nat) (h : k' ≠ k) :
    readBackendAddrCache (mapSet m k v) k' = readBackendAddrCache m k' := by
  simp [readBackendAddrCache, find_mapSet_ne m k v k' h]

/-- Claim C4: inserting `(k, v)` publishes a snapshot that (extensionally,
via lookup) equals the previous snapshot `m` with `k` bound to `v` when `m`
has fewer entries than `_MaxBackendAddrCacheCount`, and equals the singleton
map `{k ↦ v}` when `m` has reached that maximum size. -/
theorem writeCache_publish (m : CacheMap) (k v k' : List Nat) :
    readBackendAddrCache (writeBackendAddrCache m k v) k' =
      if m.length < MaxBackendAddrCacheCount then
        (if k' = k then some v else readBackendAddrCache m k')
      else
        (if k' = k then some v else none) := by
  unfold writeBackendAddrCache
  by_cases hlen : m.length < MaxBackendAddrCacheCount
  · rw [if_pos hlen, if_pos hlen]
    by_cases hk : k' = k
    · rw [if_pos hk, hk, readBackendAddrCache_mapSet_self]
    · rw [if_neg hk, readBackendAddrCache_mapSet_ne m k v k' hk]
  · rw [if_neg hlen, if_neg hlen]
    by_cases hk : k' = k
    · rw [if_pos hk, hk, readBackendAddrCache_mapSet_self]
    · rw [if_neg hk, readBackendAddrCache_mapSet_ne [] k v k' hk]
      rfl

theorem mapSet_keys_nodup (m : CacheMap) (k v : List Nat)
    (h : (m.map Prod.fst).Nodup) : ((mapSet m k v).map Prod.fst).Nodup := by
  unfold mapSet
  rw [List.map_append, List.nodup_append]
  refine ⟨h.sublist ((List.filter_sublist m).map Prod.fst), by simp, ?_⟩
  intro x hx
  simp only [List.mem_map] at hx
  obtain ⟨p, hp, rfl⟩ := hx
  have hpk := List.of_mem_filter hp
  simp only [bne_iff_ne, ne_eq] at hpk
  simp [hpk]

theorem mapSet_length_le (m : CacheMap) (k v : List Nat) :
    (mapSet m k v).length ≤ m.length + 1 := by
  unfold mapSet
  have := List.length_filter_le (fun p => p.1 != k) m
  simp only [List.length_append, List.length_cons, List.length_nil]
  omega

theorem cacheReachable_invariant (m : CacheMap) (h : CacheReachable m) :
    (m.map Prod.fst).Nodup ∧ m.length ≤ MaxBackendAddrCacheCount := by
  induction h with
  | init => exact ⟨List.nodup_nil, by norm_num [MaxBackendAddrCacheCount]⟩
  | step m k v _ ih =>
    unfold writeBackendAddrCache
    by_cases hlen : m.length < MaxBackendAddrCacheCount
    · rw [if_pos hlen]
      exact ⟨mapSet_keys_nodup m k v ih.1, le_trans (mapSet_length_le m k v) (by omega)⟩
    · rw [if_neg hlen]
      refine ⟨mapSet_keys_nodup [] k v (by simp), ?_⟩
      have h1 : (mapSet [] k v).length ≤ 1 := mapSet_length_le [] k v
      have h2 : 1 ≤ MaxBackendAddrCacheCount := by norm_num [MaxBackendAddrCacheCount]
      omega

/-- Claim C5: in every cache snapshot reachable from the empty initial
cache by inserts, the keys are distinct (so the snapshot's length is the
number of entries visible via lookup) and the number of entries never
exceeds the configured maximum plus one. -/
theorem cache_bound (m : CacheMap) (h : CacheReachable m) :
    (m.map Prod.fst).Nodup ∧ m.length ≤ MaxBackendAddrCacheCount + 1 := by
  obtain ⟨h1, h2⟩ := cacheReachable_invariant m h
  exact ⟨h1, by omega⟩

theorem cache_bound_witness :
    ((writeBackendAddrCache [] [97] [98]).map Prod.fst).Nodup ∧
      (writeBackendAddrCache [] [97] [98]).length ≤ MaxBackendAddrCacheCount + 1 :=
  cache_bound _ (CacheReachable.step [] [97] [98] CacheReachable.init)

/-- Claim C6, counterexample: no snapshot with exactly
`_MaxBackendAddrCacheCount + 1` entries is ever published.  The pre-insert
size check clears the cache as soon as the pre-insert snapshot has `max`
entries, so published snapshots never exceed `max` entries and the
`max + 1` figure claimed by the spec is unreachable. -/
theorem cache_overflow_cex :
    ¬ ∃ m : CacheMap, CacheReachable m ∧ m.length = MaxBackendAddrCacheCount + 1 := by
  rintro ⟨m, hr, hl⟩
  have h := (cacheReachable_invariant m hr).2
  omega

/-- Distinct keys used to fill the cache to its maximum size. -/
def fillKey (i : Nat) : List Nat := List.replicate i 0

/-- The cache obtained by inserting `fillKey 0, …, fillKey (n-1)` in order
into the empty cache. -/
def fillCache : Nat → CacheMap
  | 0 => []
  | n + 1 => writeBackendAddrCache (fillCache n) (fillKey n) []

theorem fillCache_reachable (n : Nat) : CacheReachable (fillCache n) := by
  induction n with
  | zero => exact CacheReachable.init
  | succ n ih => exact CacheReachable.step _ _ _ ih

theorem fillCache_spec (n : Nat) (hn : n ≤ MaxBackendAddrCacheCount) :
    (fillCache n).length = n ∧ ∀ p ∈ fillCache n, ∃ i, i < n ∧ p.1 = fillKey i := by
  induction n with
  | zero => exact ⟨rfl, by simp [fillCache]⟩
  | succ n ih =>
    obtain ⟨hlen, hmem⟩ := ih (by omega)
    have hlt : (fillCache n).length < MaxBackendAddrCacheCount := by omega
    have hstep : fillCache (n + 1) = mapSet (fillCache n) (fillKey n) [] := by
      rw [fillCache, writeBackendAddrCache, if_pos hlt]
    have hfilter : (fillCache n).filter (fun p => p.1 != fillKey n) = fillCache n := by
      rw [List.filter_eq_self]
      intro p hp
      obtain ⟨i, hi, hpk⟩ := hmem p hp
      have : p.1 ≠ fillKey n := by
        rw [hpk]
        intro hcontra
        have := congrArg List.length hcontra
        simp [fillKey] at this
        omega
      simpa using this
    constructor
    · rw [hstep, mapSet, hfilter]
      simp [hlen]
    · intro p hp
      rw [hstep, mapSet, hfilter] at hp
      rcases List.mem_append.mp hp with hp1 | hp2
      · obtain ⟨i, hi, hpk⟩ := hmem p hp1
        exact ⟨i, by omega, hpk⟩
      · simp only [List.mem_singleton] at hp2
        exact ⟨n, by omega, by rw [hp2]⟩

/-- Claim C6, amended: there is a sequence of inserts from the empty cache
after which the published snapshot holds exactly
`_MaxBackendAddrCacheCount` entries (the maximum, not `max + 1`), and the
next insert then clears the cache down to the singleton holding only the
new entry. -/
theorem cache_overflow_amended :
    ∃ m : CacheMap, CacheReachable m ∧ m.length = MaxBackendAddrCacheCount ∧
      ∀ k v, writeBackendAddrCache m k v = [(k, v)] := by
  refine ⟨fillCache MaxBackendAddrCacheCount, fillCache_reachable _,
    (fillCache_spec _ le_rfl).1, ?_⟩
  intro k v
  have hfull : ¬ (fillCache MaxBackendAddrCacheCount).length < MaxBackendAddrCacheCount := by
    rw [(fillCache_spec _ le_rfl).1]
    omega
  rw [writeBackendAddrCache, if_neg hfull]
  rfl

/-- Claim C7: a wire token on which any decode step fails is never
inserted into the cache — the handler leaves the published cache snapshot
unchanged for that connection. -/
theorem failed_token_not_cached (E : List Nat → List Nat) (salt : List Nat)
    (m : CacheMap) (tok : List Nat) (dialOk : Bool) (e : DecodeError)
    (h : decodeToken E salt tok = .error e) :
    (handleConn E salt m (some tok) dialOk).1 = m := by
  unfold handleConn resolveAddr
  cases hc : readBackendAddrCache m tok with
  | some addr => simp [hc]
  | none => simp [hc, h]

theorem failed_token_not_cached_witness :
    decodeToken zeroCipher [5] [] = .error .ciphertextTooShort ∧
      (handleConn zeroCipher [5] [] (some []) true).1 = [] :=
  ⟨rfl, failed_token_not_cached zeroCipher [5] [] [] true DecodeError.ciphertextTooShort rfl⟩

/-- Claim C8: the relay can return while both copy directions are still
pending.  Because each `pipe` goroutine performs its `wg.Add(1)` only
after it has been scheduled, the schedule in which the parent reaches
`wg.Wait()` first observes a zero counter, so `wg.Wait()` returns at once
and the handler proceeds to close both connections while neither `io.Copy`
direction has terminated — contradicting the contract that the relay
returns only after both directions have terminated. -/
theorem relay_wait_race :
    ∃ s : RelayState, RelayReachable s ∧ s.waitReturned = true ∧
      s.p1 ≠ PipePhase.finished ∧ s.p2 ≠ PipePhase.finished := by
  refine ⟨{ relayInit with waitReturned := true }, ?_, rfl, by decide, by decide⟩
  exact RelayReachable.step relayInit _ RelayReachable.init (RelayStep.waitRet relayInit rfl)

/-- Claim C9: over any finite schedule of accept-loop events, the process
dies if and only if an accept failure occurs (`log.Fatal`), and every
connection delivered before the first accept failure — including every
one whose header read, decode or dial fails — is handled to an outcome,
i.e. per-connection failures never stop the accept loop. -/
theorem failure_scoping (E : List Nat → List Nat) (salt : List Nat)
    (evs : List ConnEvent) (m : CacheMap) :
    ((serverRun E salt m evs).2 = true ↔ ConnEvent.acceptFail ∈ evs) ∧
      (serverRun E salt m evs).1.length = (evs.takeWhile isConnEvent).length := by
  induction evs generalizing m with
  | nil => simp [serverRun]
  | cons e rest ih =>
    cases e with
    | acceptFail => simp [serverRun, isConnEvent]
    | conn line dialOk =>
      have h := ih (handleConn E salt m line dialOk).1
      refine ⟨?_, ?_⟩
      · rw [serverRun]
        simp only [List.mem_cons]
        rw [h.1]
        constructor
        · exact fun hm => Or.inr hm
        · rintro (hcontra | hm)
          · exact absurd hcontra (by simp)
          · exact hm
      · rw [serverRun, List.takeWhile_cons]
        simp [isConnEvent, h.2]

theorem xor_lt_256 {x y : Nat} (hx : x < 256) (hy : y < 256) : x ^^^ y < 256 := by
  have h : Nat.bitwise bne x y < 2 ^ 8 :=
    Nat.bitwise_lt_two_pow (by norm_num; omega) (by norm_num; omega)
  norm_num at h
  exact h

theorem zipWith_xor_bytes (ks l : List Nat) (hk : ∀ x ∈ ks, x < 256)
    (hl : ∀ x ∈ l, x < 256) : ∀ x ∈ List.zipWith Nat.xor ks l, x < 256 := by
  induction ks generalizing l with
  | nil => simp
  | cons a ks ih =>
    cases l with
    | nil => simp
    | cons b l =>
      intro x hx
      rcases List.mem_cons.mp hx with h1 | h2
      · rw [h1]
        exact xor_lt_256 (hk a (by simp)) (hl b (by simp))
      · exact ih l (fun y hy => hk y (by simp [hy])) (fun y hy => hl y (by simp [hy])) x h2

theorem zipWith_xor_cancel (ks l : List Nat) (h : l.length ≤ ks.length) :
    List.zipWith Nat.xor ks (List.zipWith Nat.xor ks l) = l := by
  induction ks generalizing l with
  | nil =>
    have : l = [] := List.length_eq_zero.mp (by simpa using h)
    simp [this]
  | cons a ks ih =>
    cases l with
    | nil => simp
    | cons b l =>
      simp only [List.zipWith_cons_cons]
      rw [show a.xor (a.xor b) = b from Nat.xor_cancel_left a b, ih l (by simpa using h)]

theorem cfbEncryptFuel_nil (E : List Nat → List Nat) (n : Nat) (prev : List Nat) :
    cfbEncryptFuel E n prev [] = [] := by
  cases n <;> rfl

theorem cfbDecryptFuel_nil (E : List Nat → List Nat) (n : Nat) (prev : List Nat) :
    cfbDecryptFuel E n prev [] = [] := by
  cases n <;> rfl

theorem cfbEncryptFuel_cons (E : List Nat → List Nat) (n : Nat) (prev : List Nat)
    (z : Nat) (zs : List Nat) :
    cfbEncryptFuel E (n + 1) prev (z :: zs) =
      List.zipWith Nat.xor (E prev) (List.take aesBlockSize (z :: zs)) ++
        cfbEncryptFuel E n (List.zipWith Nat.xor (E prev) (List.take aesBlockSize (z :: zs)))
          (List.drop aesBlockSize (z :: zs)) := rfl

theorem cfbDecryptFuel_ne_nil (E : List Nat → List Nat) (n : Nat) (prev l : List Nat)
    (hl : l ≠ []) :
    cfbDecryptFuel E (n + 1) prev l =
      List.zipWith Nat.xor (E prev) (List.take aesBlockSize l) ++
        cfbDecryptFuel E n (List.take aesBlockSize l) (List.drop aesBlockSize l) := by
  cases l with
  | nil => exact absurd rfl hl
  | cons z zs => rfl

theorem cfbEncryptFuel_length (E : List Nat → List Nat)
    (hE : ∀ b, (E b).length = aesBlockSize) :
    ∀ n prev p, p.length ≤ n → (cfbEncryptFuel E n prev p).length = p.length := by
  intro n
  induction n with
  | zero =>
    intro prev p hp
    have hp0 : p = [] := List.length_eq_zero.mp (by omega)
    subst hp0
    rfl
  | succ n ih =>
    intro prev p hp
    cases p with
    | nil => rfl
    | cons y ys =>
      have hdrop : (List.drop aesBlockSize (y :: ys)).length ≤ n := by
        simp only [List.length_drop, List.length_cons]
        simp only [List.length_cons] at hp
        have : 1 ≤ aesBlockSize := by norm_num [aesBlockSize]
        omega
      rw [cfbEncryptFuel_cons, List.length_append, ih _ _ hdrop]
      simp only [List.length_zipWith, hE, List.length_take, List.length_drop, List.length_cons]
      omega

theorem cfbEncryptFuel_bytes (E : List Nat → List Nat)
    (hEb : ∀ b, ∀ x ∈ E b, x < 256) :
    ∀ n prev p, (∀ x ∈ p, x < 256) → ∀ x ∈ cfbEncryptFuel E n prev p, x < 256 := by
  intro n
  induction n with
  | zero =>
    intro prev p hp x hx
    rw [show cfbEncryptFuel E 0 prev p = [] from rfl] at hx
    exact absurd hx (List.not_mem_nil x)
  | succ n ih =>
    intro prev p hp
    cases p with
    | nil =>
      intro x hx
      rw [cfbEncryptFuel_nil] at hx
      exact absurd hx (List.not_mem_nil x)
    | cons y ys =>
      intro x hx
      rw [cfbEncryptFuel_cons] at hx
      rcases List.mem_append.mp hx with h1 | h2
      · exact zipWith_xor_bytes _ _ (hEb prev)
          (fun z hz => hp z (List.mem_of_mem_take hz)) x h1
      · exact ih _ _ (fun z hz => hp z (List.mem_of_mem_drop hz)) x h2

theorem cfb_roundtrip_fuel (E : List Nat → List Nat)
    (hE : ∀ b, (E b).length = aesBlockSize) :
    ∀ n prev p, p.length ≤ n →
      cfbDecryptFuel E n prev (cfbEncryptFuel E n prev p) = p := by
  intro n
  induction n with
  | zero =>
    intro prev p hp
    have hp0 : p = [] := List.length_eq_zero.mp (by omega)
    subst hp0
    rfl
  | succ n ih =>
    intro prev p hp
    cases p with
    | nil => rfl
    | cons y ys =>
      rw [cfbEncryptFuel_cons]
      set c := List.zipWith Nat.xor (E prev) (List.take aesBlockSize (y :: ys)) with hc
      set rest := cfbEncryptFuel E n c (List.drop aesBlockSize (y :: ys)) with hrest
      have hclen : c.length = min aesBlockSize (ys.length + 1) := by
        rw [hc]
        simp only [List.length_zipWith, hE, List.length_take, List.length_cons]
        omega
      have h16 : 1 ≤ aesBlockSize := by norm_num [aesBlockSize]
      have hne : c ++ rest ≠ [] := by
        intro hcontra
        have hc0 : c = [] := (List.append_eq_nil.mp hcontra).1
        have := congrArg List.length hc0
        rw [hclen] at this
        simp at this
        omega
      rw [cfbDecryptFuel_ne_nil E n prev (c ++ rest) hne]
      by_cases hbig : aesBlockSize ≤ ys.length + 1
      · have hc16 : c.length = aesBlockSize := by omega
        rw [List.take_left' hc16, List.drop_left' hc16]
        have hcancel : List.zipWith Nat.xor (E prev) c = List.take aesBlockSize (y :: ys) := by
          rw [hc]
          exact zipWith_xor_cancel (E prev) _
            (by rw [hE prev]; simp only [List.length_take, List.length_cons]; omega)
        have hdl : (List.drop aesBlockSize (y :: ys)).length ≤ n := by
          simp only [List.length_drop, List.length_cons]
          simp only [List.length_cons] at hp
          omega
        have hrest2 : cfbDecryptFuel E n c rest = List.drop aesBlockSize (y :: ys) := by
          rw [hrest]
          exact ih c _ hdl
        rw [hcancel, hrest2, List.take_append_drop]
      · push_neg at hbig
        have hdropnil : List.drop aesBlockSize (y :: ys) = [] :=
          List.drop_eq_nil_of_le (by simp only [List.length_cons]; omega)
        have hrestnil : rest = [] := by rw [hrest, hdropnil, cfbEncryptFuel_nil]
        have hcle : c.length ≤ aesBlockSize := by omega
        rw [hrestnil, List.append_nil, List.take_of_length_le hcle,
          List.drop_eq_nil_of_le hcle, cfbDecryptFuel_nil, List.append_nil, hc]
        have htakeall : List.take aesBlockSize (y :: ys) = y :: ys :=
          List.take_of_length_le (by simp only [List.length_cons]; omega)
        rw [htakeall]
        exact zipWith_xor_cancel (E prev) (y :: ys)
          (by rw [hE prev]; simp only [List.length_cons]; omega)

/-- CFB decryption inverts CFB encryption under the same block cipher and
IV, for any plaintext. -/
theorem cfb_roundtrip (E : List Nat → List Nat)
    (hE : ∀ b, (E b).length = aesBlockSize) (iv p : List Nat) :
    cfbDecrypt E iv (cfbEncrypt E iv p) = p := by
  unfold cfbDecrypt cfbEncrypt
  rw [cfbEncryptFuel_length E hE p.length iv p le_rfl]
  exact cfb_roundtrip_fuel E hE p.length iv p le_rfl

theorem b64Char_ne_61 (n : Nat) : b64Char n ≠ 61 := by
  unfold b64Char
  split_ifs <;> omega

theorem b64Char_ge_43 (n : Nat) : 43 ≤ b64Char n := by
  unfold b64Char
  split_ifs <;> omega

theorem b64Index_b64Char : ∀ g, g < 64 → b64Index (b64Char g) = some g := by decide

theorem base64Encode_mem_ge (l : List Nat) : ∀ x ∈ base64Encode l, 43 ≤ x := by
  induction l using base64Encode.induct with
  | case1 => simp [base64Encode]
  | case2 a =>
    intro x hx
    simp only [base64Encode, List.mem_cons, List.not_mem_nil, or_false] at hx
    rcases hx with h | h | h | h <;> subst h
    · exact b64Char_ge_43 _
    · exact b64Char_ge_43 _
    · omega
    · omega
  | case3 a b =>
    intro x hx
    simp only [base64Encode, List.mem_cons, List.not_mem_nil, or_false] at hx
    rcases hx with h | h | h | h <;> subst h
    · exact b64Char_ge_43 _
    · exact b64Char_ge_43 _
    · exact b64Char_ge_43 _
    · omega
  | case4 a b c rest ih =>
    intro x hx
    simp only [base64Encode, List.mem_cons] at hx
    rcases hx with h | h | h | h | h
    · subst h; exact b64Char_ge_43 _
    · subst h; exact b64Char_ge_43 _
    · subst h; exact b64Char_ge_43 _
    · subst h; exact b64Char_ge_43 _
    · exact ih x h

/-- base64-encoded output contains no carriage return or newline, so the
Go decoder's newline-skipping pass leaves it unchanged. -/
theorem base64Encode_filter_id (l : List Nat) :
    (base64Encode l).filter (fun c => !(c == 13 || c == 10)) = base64Encode l := by
  rw [List.filter_eq_self]
  intro x hx
  have := base64Encode_mem_ge l x hx
  simp only [Bool.not_eq_true', Bool.or_eq_false_iff, beq_eq_false_iff_ne, ne_eq]
  omega

theorem base64DecodeQuads_encode (l : List Nat) (hb : ∀ x ∈ l, x < 256) :
    base64DecodeQuads (base64Encode l) = some l := by
  induction l using base64Encode.induct with
  | case1 => rfl
  | case2 a =>
    have ha : a < 256 := hb a (by simp)
    show base64DecodeQuads [b64Char (a / 4), b64Char (a % 4 * 16), 61, 61] = some [a]
    rw [base64DecodeQuads, if_pos ⟨rfl, rfl, rfl⟩]
    simp only [b64Index_b64Char (a / 4) (by omega), b64Index_b64Char (a % 4 * 16) (by omega)]
    simp only [Option.some.injEq, List.cons.injEq, and_true]
    omega
  | case3 a b =>
    have ha : a < 256 := hb a (by simp)
    have hb2 : b < 256 := hb b (by simp)
    show base64DecodeQuads
        [b64Char (a / 4), b64Char (a % 4 * 16 + b / 16), b64Char (b % 16 * 4), 61] = some [a, b]
    rw [base64DecodeQuads, if_neg (fun h => b64Char_ne_61 _ h.1), if_pos (by simp)]
    simp only [b64Index_b64Char (a / 4) (by omega),
      b64Index_b64Char (a % 4 * 16 + b / 16) (by omega),
      b64Index_b64Char (b % 16 * 4) (by omega)]
    simp only [Option.some.injEq, List.cons.injEq, and_true]
    refine ⟨by omega, by omega⟩
  | case4 a b c rest ih =>
    have ha : a < 256 := hb a (by simp)
    have hb2 : b < 256 := hb b (by simp)
    have hc : c < 256 := hb c (by simp)
    have hrest : ∀ x ∈ rest, x < 256 := fun x hx => hb x (by simp [hx])
    show base64DecodeQuads
        (b64Char (a / 4) :: b64Char (a % 4 * 16 + b / 16) ::
          b64Char (b % 16 * 4 + c / 64) :: b64Char (c % 64) :: base64Encode rest) =
      some (a :: b :: c :: rest)
    rw [base64DecodeQuads, if_neg (fun h => b64Char_ne_61 _ h.1),
      if_neg (fun h => b64Char_ne_61 _ h.1)]
    simp only [b64Index_b64Char (a / 4) (by omega),
      b64Index_b64Char (a % 4 * 16 + b / 16) (by omega),
      b64Index_b64Char (b % 16 * 4 + c / 64) (by omega),
      b64Index_b64Char (c % 64) (by omega), ih hrest]
    simp only [Option.some.injEq, List.cons.injEq]
    refine ⟨by omega, by omega, by omega, trivial⟩

/-- base64 decoding inverts base64 encoding on byte inputs. -/
theorem base64Decode_encode (l : List Nat) (hb : ∀ x ∈ l, x < 256) :
    base64Decode (base64Encode l) = some l := by
  rw [base64Decode, base64Encode_filter_id, base64DecodeQuads_encode l hb]

theorem decodePayload_eq (E : List Nat → List Nat) (salt data : List Nat)
    (h : aesBlockSize ≤ data.length) :
    decodePayload E salt data =
      (if (cfbDecrypt E (data.take aesBlockSize) (data.drop aesBlockSize)).length < salt.length
       then .error .saltCheckFailed
       else if (cfbDecrypt E (data.take aesBlockSize) (data.drop aesBlockSize)).drop
              ((cfbDecrypt E (data.take aesBlockSize) (data.drop aesBlockSize)).length
                - salt.length) = salt
       then .ok ((cfbDecrypt E (data.take aesBlockSize) (data.drop aesBlockSize)).take
              ((cfbDecrypt E (data.take aesBlockSize) (data.drop aesBlockSize)).length
                - salt.length))
       else .error .saltNotMatch) := by
  rw [decodePayload, if_neg (by omega)]

/-- Claim C1: round-trip.  For every destination address `D` (non-empty
byte string with no newline byte), every block cipher `E` arising from a
valid-length AES key, every salt, and every block-size IV, decoding the
token `base64_standard_encode(IV ++ AES_CFB_encrypt(key, IV, D ++ salt))`
with the same key and salt succeeds and yields exactly `D`. -/
theorem token_roundtrip (E : List Nat → List Nat)
    (hElen : ∀ b, (E b).length = aesBlockSize)
    (hEbyte : ∀ b, ∀ x ∈ E b, x < 256)
    (D salt iv : List Nat)
    (hD : D ≠ []) (hNoNewline : 10 ∉ D)
    (hDbyte : ∀ x ∈ D, x < 256) (hSbyte : ∀ x ∈ salt, x < 256)
    (hivLen : iv.length = aesBlockSize) (hivByte : ∀ x ∈ iv, x < 256) :
    decodeToken E salt (base64Encode (iv ++ cfbEncrypt E iv (D ++ salt))) =
      Except.ok D := by
  have hptByte : ∀ x ∈ D ++ salt, x < 256 := by
    intro x hx
    rcases List.mem_append.mp hx with h | h
    · exact hDbyte x h
    · exact hSbyte x h
  have hctByte : ∀ x ∈ cfbEncrypt E iv (D ++ salt), x < 256 :=
    cfbEncryptFuel_bytes E hEbyte _ iv _ hptByte
  have hdataByte : ∀ x ∈ iv ++ cfbEncrypt E iv (D ++ salt), x < 256 := by
    intro x hx
    rcases List.mem_append.mp hx with h | h
    · exact hivByte x h
    · exact hctByte x h
  have hlen : aesBlockSize ≤ (iv ++ cfbEncrypt E iv (D ++ salt)).length := by
    simp only [List.length_append, hivLen]
    omega
  simp only [decodeToken, base64Decode_encode _ hdataByte]
  rw [decodePayload_eq E salt _ hlen, List.take_left' hivLen, List.drop_left' hivLen,
    cfb_roundtrip E hElen iv (D ++ salt)]
  have hsle : ¬ (D ++ salt).length < salt.length := by
    simp only [List.length_append]
    omega
  have hds : (D ++ salt).length - salt.length = D.length := by
    simp only [List.length_append]
    omega
  rw [if_neg hsle, hds, List.drop_left, List.take_left, if_pos rfl]

theorem token_roundtrip_witness :
    decodeToken zeroCipher [5]
        (base64Encode (List.replicate 16 0 ++
          cfbEncrypt zeroCipher (List.replicate 16 0) ([97] ++ [5]))) =
      Except.ok [97] :=
  token_roundtrip zeroCipher
    (fun b => by simp [zeroCipher, aesBlockSize])
    (fun b x hx => by
      simp only [zeroCipher, List.mem_replicate] at hx
      omega)
    [97] [5] (List.replicate 16 0)
    (by simp) (by simp) (by decide) (by decide)
    (by simp [aesBlockSize])
    (fun x hx => by
      simp only [List.mem_replicate] at hx
      omega)

/-- Claim C2, counterexample: a token whose base64-decoded payload is
exactly one block (16 bytes) leaves an *empty* remainder after the IV, yet
decode does not fail with the truncation error ("ciphertext too short") —
it proceeds past the length check and fails only at the salt check.  This
refutes the claim that decode requires the remainder after the IV to be
non-empty and at least one block long. -/
theorem truncation_check_cex :
    decodeToken zeroCipher [5] (base64Encode (List.replicate 16 0)) =
        .error .saltCheckFailed ∧
      DecodeError.saltCheckFailed ≠ DecodeError.ciphertextTooShort :=
  ⟨rfl, by decide⟩

/-- Claim C2, amended: decode fails with the truncation error
("ciphertext too short") exactly when the base64-decoded payload is
shorter than one block, i.e. too short to contain even the IV; whenever
the payload is at least one block long decode proceeds past this step,
even if the remainder after the IV is empty or shorter than a block. -/
theorem truncation_check_amended (E : List Nat → List Nat) (salt tok data : List Nat)
    (hdec : base64Decode tok = some data) :
    (decodeToken E salt tok = .error .ciphertextTooShort ↔ data.length < aesBlockSize) := by
  simp only [decodeToken, hdec]
  by_cases h : data.length < aesBlockSize
  · simp [decodePayload, h]
  · rw [decodePayload_eq E salt data (by omega)]
    constructor
    · intro hcontra
      split_ifs at hcontra <;> simp at hcontra
    · intro hcontra
      exact absurd hcontra h

theorem truncation_check_amended_witness :
    (decodeToken zeroCipher [7] [] = .error .ciphertextTooShort ↔
      ([] : List Nat).length < aesBlockSize) :=
  truncation_check_amended zeroCipher [7] [] [] rfl

/-- Claim C3: for every token that passes base64 decoding and the length
check, decode succeeds if and only if the CFB-decrypted plaintext ends
with exactly the configured salt, and on success the returned address is
the decrypted plaintext with the salt suffix removed; on salt mismatch no
address is produced. -/
theorem salt_check_strip (E : List Nat → List Nat) (salt tok data : List Nat)
    (hdec : base64Decode tok = some data) (hlen : aesBlockSize ≤ data.length) (a : List Nat) :
    (decodeToken E salt tok = .ok a ↔
      salt.IsSuffix (cfbDecrypt E (data.take aesBlockSize) (data.drop aesBlockSize)) ∧
        a = (cfbDecrypt E (data.take aesBlockSize) (data.drop aesBlockSize)).take
          ((cfbDecrypt E (data.take aesBlockSize) (data.drop aesBlockSize)).length
            - salt.length)) := by
  simp only [decodeToken, hdec]
  rw [decodePayload_eq E salt data hlen]
  set text := cfbDecrypt E (data.take aesBlockSize) (data.drop aesBlockSize) with htext
  by_cases h1 : text.length < salt.length
  · rw [if_pos h1]
    constructor
    · intro hcontra
      exact absurd hcontra (by simp)
    · rintro ⟨hsuf, _⟩
      have := hsuf.length_le
      omega
  · rw [if_neg h1]
    by_cases h2 : text.drop (text.length - salt.length) = salt
    · rw [if_pos h2]
      constructor
      · intro hok
        simp only [Except.ok.injEq] at hok
        refine ⟨?_, hok.symm⟩
        rw [← h2]
        exact List.drop_suffix _ _
      · rintro ⟨_, rfl⟩
        rfl
    · rw [if_neg h2]
      constructor
      · intro hcontra
        exact absurd hcontra (by simp)
      · rintro ⟨hsuf, _⟩
        apply absurd _ h2
        obtain ⟨t, ht⟩ := hsuf
        have hlen2 : text.length = t.length + salt.length := by
          rw [← ht]
          simp
        have hts : text.length - salt.length = t.length := by omega
        rw [hts, ← ht, List.drop_left]

theorem salt_check_strip_witness :
    decodeToken zeroCipher [0] (base64Encode (List.replicate 17 0)) = Except.ok [] := by
  have h := salt_check_strip zeroCipher [0] (base64Encode (List.replicate 17 0))
    (List.replicate 17 0)
    (base64Decode_encode _ (fun x hx => by
      simp only [List.mem_replicate] at hx
      omega))
    (by simp [aesBlockSize]) []
  rw [h]
  have htext : cfbDecrypt zeroCipher ((List.replicate 17 0).take aesBlockSize)
      ((List.replicate 17 0).drop aesBlockSize) = [0] := rfl
  rw [htext]
  exact ⟨List.suffix_rfl, by simp⟩

/-- Claim C10: when the configured salt is empty, the salt integrity check
passes for every input: decode succeeds on every token whose base64
decoding yields a payload of at least one block, returning the entire
decrypted remainder as the address, and no salt-mismatch failure
("salt check failed" / "salt not match") is ever produced for any token. -/
theorem empty_salt_decode (E : List Nat → List Nat) (tok data : List Nat)
    (hdec : base64Decode tok = some data) (hlen : aesBlockSize ≤ data.length) :
    decodeToken E [] tok =
        .ok (cfbDecrypt E (data.take aesBlockSize) (data.drop aesBlockSize)) ∧
      ∀ tok2, decodeToken E [] tok2 ≠ .error .saltCheckFailed ∧
        decodeToken E [] tok2 ≠ .error .saltNotMatch := by
  constructor
  · simp only [decodeToken, hdec]
    rw [decodePayload_eq E [] data hlen]
    rw [if_neg (by simp), if_pos (by simp)]
    simp
  · intro tok2
    cases hd2 : base64Decode tok2 with
    | none =>
      constructor <;> simp [decodeToken, hd2]
    | some d2 =>
      simp only [decodeToken, hd2]
      by_cases h : d2.length < aesBlockSize
      · constructor <;> simp [decodePayload, h]
      · rw [decodePayload_eq E [] d2 (by omega)]
        rw [if_neg (by simp), if_pos (by simp)]
        constructor <;> simp

theorem empty_salt_decode_witness :
    decodeToken zeroCipher [] (base64Encode (List.replicate 16 0)) =
        .ok (cfbDecrypt zeroCipher ((List.replicate 16 0).take aesBlockSize)
          ((List.replicate 16 0).drop aesBlockSize)) ∧
      decodeToken zeroCipher [] [33] ≠ .error .saltCheckFailed ∧
        decodeToken zeroCipher [] [33] ≠ .error .saltNotMatch := by
  have h := empty_salt_decode zeroCipher (base64Encode (List.replicate 16 0))
    (List.replicate 16 0)
    (base64Decode_encode _ (fun x hx => by
      simp only [List.mem_replicate] at hx
      omega))
    (by simp [aesBlockSize])
  exact ⟨h.1, h.2 [33]⟩
